import Mathlib

/-!
Verification of the apophenia library (seekable PRNG distributions).

A shallow embedding, in Lean 4, of the parts of the `apophenia` Go package
that the checked claims are about:

* `int128.go`   — the 128-bit integer utility (`Uint128` and its methods);
* `permute.go`  — the seekable pseudo-random permutation of `[0, max)`;
* the Zipf sampler source file — the seekable Zipf variate generator.

Machine `uint64` words are modelled as `Nat` with explicit reduction
modulo `2^64` wherever the Go code can wrap; a Go `Sequence` (the
keystream interface, whose single method is `BitsAt`) is an arbitrary
function `Uint128 → Uint128`; `float64` values and operations are kept
abstract (a `FloatOps` record), because the claims proved about the Zipf
code are control-flow and state properties that hold for every
interpretation of the arithmetic.  Loops of the source that have no
a-priori bound (rejection sampling) take an explicit fuel argument and
return `Option`.
-/

/-- `2^64`, the modulus of Go `uint64` arithmetic. -/
def W64 : Nat := 2 ^ 64

/-- `int128.go`: a pair of `uint64`, low word `Lo`, high word `Hi`;
value `Hi * 2^64 + Lo`.  The fields are `Nat`s that the operations keep
below `2^64`. -/
structure Uint128 where
  Lo : Nat
  Hi : Nat
deriving DecidableEq, Repr

/-- Numeric value of a `Uint128` (`Hi·2^64 + Lo`). -/
def Uint128.toNat (u : Uint128) : Nat := u.Hi * W64 + u.Lo

/-- `int128.go` `Add`: `u.Lo += v.Lo`; carry when the new `Lo` is below
`v.Lo`; `u.Hi += v.Hi`.  (In-place in Go; value-producing here.) -/
def Uint128.Add (u v : Uint128) : Uint128 :=
  let lo := (u.Lo + v.Lo) % W64
  let hi := if lo < v.Lo then (u.Hi + 1) % W64 else u.Hi
  { Lo := lo, Hi := (hi + v.Hi) % W64 }

/-- `int128.go` `Sub`: `u.Lo -= v.Lo`; borrow when the new `Lo` is above
`v.Lo`; `u.Hi -= v.Hi`.  (Translated as written: the borrow test compares
the already-updated `Lo` against `v.Lo`.) -/
def Uint128.Sub (u v : Uint128) : Uint128 :=
  let lo := (u.Lo + W64 - v.Lo) % W64
  let hi := if lo > v.Lo then (u.Hi + W64 - 1) % W64 else u.Hi
  { Lo := lo, Hi := (hi + W64 - v.Hi) % W64 }

/-- `int128.go` `Bit`: `1` if the `n`th bit is set, else `0`; `0` for
`n ≥ 128`.  (`n & 63` is `n % 64`.) -/
def Uint128.Bit (u : Uint128) (n : Nat) : Nat :=
  if n ≥ 128 then 0
  else if n ≥ 64 then (u.Hi >>> (n % 64)) &&& 1
  else (u.Lo >>> n) &&& 1

/-- `int128.go` method `Mask`: clips to the lower `n` bits.  Translated as
written: for `n ≥ 128` unchanged; for `64 ≤ n < 128` only `Hi` is masked;
for `n < 64` only `Lo` is masked (`Hi` is left untouched). -/
def Uint128.Mask (u : Uint128) (n : Nat) : Uint128 :=
  if n ≥ 128 then u
  else if n ≥ 64 then { u with Hi := u.Hi &&& (2 ^ (n % 64) - 1) }
  else { u with Lo := u.Lo &&& (2 ^ n - 1) }

/-- A keystream: the one method `BitsAt` of the Go `Sequence` interface,
as a pure function from 128-bit offsets to 128-bit blocks. -/
def Sequence : Type := Uint128 → Uint128

/-- Sequence tag of the permutation's swap keys (spec §3). -/
def SequencePermutationK : Nat := 1

/-- Sequence tag of the permutation's decision bits (spec §3). -/
def SequencePermutationF : Nat := 2

/-- Sequence tag of the Zipf uniforms (spec §3). -/
def SequenceZipfU : Nat := 5

/-- Modelled from the spec: `OffsetFor` is declared in the sequence source
file of this repository, which is not among the given files; spec §3/§4.3
give its layout — low word = the 64-bit `id`, high word = 24-bit
`iteration` | 8-bit `tag` at bit 24 | 32-bit `seed` at bit 32. -/
def OffsetFor (tag seed iter idn : Nat) : Uint128 :=
  { Lo := idn % W64
    Hi := iter % 2 ^ 24 + tag % 2 ^ 8 * 2 ^ 24 + seed % 2 ^ 32 * 2 ^ 32 }

/-- `Add` does wrap modulo `2^128` (the `Add` half of the claim about
128-bit arithmetic holds). -/
theorem uint128_add_wraps (u v : Uint128) (hu : u.Lo < W64) (hv : v.Lo < W64) :
    (u.Add v).toNat = (u.toNat + v.toNat) % 2 ^ 128 := by
  unfold Uint128.Add Uint128.toNat
  simp only [W64] at *
  by_cases hc : (u.Lo + v.Lo) % 2 ^ 64 < v.Lo
  · -- carry case: u.Lo + v.Lo ≥ 2^64
    have hov : 2 ^ 64 ≤ u.Lo + v.Lo := by
      by_contra hlt
      push_neg at hlt
      rw [Nat.mod_eq_of_lt hlt] at hc
      omega
    simp only [if_pos hc]
    have hlo : (u.Lo + v.Lo) % 2 ^ 64 = u.Lo + v.Lo - 2 ^ 64 := by
      rw [Nat.mod_eq_sub_mod hov, Nat.mod_eq_of_lt (by omega)]
    rw [hlo]
    -- value = ((u.Hi + 1) % 2^64 + v.Hi) % 2^64 * 2^64 + (u.Lo + v.Lo - 2^64)
    have h1 : ((u.Hi + 1) % 2 ^ 64 + v.Hi) % 2 ^ 64
        = (u.Hi + 1 + v.Hi) % 2 ^ 64 := by
      rw [Nat.mod_add_mod]
    rw [h1]
    have h2 : (u.Hi + 1 + v.Hi) % 2 ^ 64 = (u.Hi + 1 + v.Hi) - 2 ^ 64 * ((u.Hi + 1 + v.Hi) / 2 ^ 64) := by
      omega
    have h3 : (u.Hi * 2 ^ 64 + u.Lo + (v.Hi * 2 ^ 64 + v.Lo)) % 2 ^ 128
        = (u.Hi * 2 ^ 64 + u.Lo + (v.Hi * 2 ^ 64 + v.Lo)) - 2 ^ 128 * ((u.Hi * 2 ^ 64 + u.Lo + (v.Hi * 2 ^ 64 + v.Lo)) / 2 ^ 128) := by
      omega
    have e128 : (2 : Nat) ^ 128 = 2 ^ 64 * 2 ^ 64 := by norm_num
    -- both sides re-expressed, finish by arithmetic
    omega
  · simp only [if_neg hc]
    have hov : u.Lo + v.Lo < 2 ^ 64 := by
      by_contra hge
      push_neg at hge
      have : (u.Lo + v.Lo) % 2 ^ 64 = u.Lo + v.Lo - 2 ^ 64 := by
        rw [Nat.mod_eq_sub_mod hge, Nat.mod_eq_of_lt (by omega)]
      omega
    rw [Nat.mod_eq_of_lt hov]
    have e128 : (2 : Nat) ^ 128 = 2 ^ 64 * 2 ^ 64 := by norm_num
    have h2 : (u.Hi + v.Hi) % 2 ^ 64 = (u.Hi + v.Hi) - 2 ^ 64 * ((u.Hi + v.Hi) / 2 ^ 64) := by
      omega
    have h3 : (u.Hi * 2 ^ 64 + u.Lo + (v.Hi * 2 ^ 64 + v.Lo)) % 2 ^ 128
        = (u.Hi * 2 ^ 64 + u.Lo + (v.Hi * 2 ^ 64 + v.Lo)) - 2 ^ 128 * ((u.Hi * 2 ^ 64 + u.Lo + (v.Hi * 2 ^ 64 + v.Lo)) / 2 ^ 128) := by
      omega
    omega

/-- C4: the claim fails on `Sub`.  At `u = {Lo 3, Hi 1}`, `v = {Lo 1, Hi 0}`
the code's borrow test (`new Lo > v.Lo`) fires although no borrow occurred:
the result is `2` where `(u − v) mod 2^128` is `2 + 2^64`.  (The `Add` half
does hold: `uint128_add_wraps`.) -/
theorem uint128_sub_not_mod_2_128 :
    (Uint128.Sub ⟨3, 1⟩ ⟨1, 0⟩).toNat = 2 ∧
      ((Uint128.toNat ⟨3, 1⟩ + 2 ^ 128 - Uint128.toNat ⟨1, 0⟩) % 2 ^ 128 = 2 + 2 ^ 64) ∧
      (Uint128.Sub ⟨3, 1⟩ ⟨1, 0⟩).toNat ≠
        (Uint128.toNat ⟨3, 1⟩ + 2 ^ 128 - Uint128.toNat ⟨1, 0⟩) % 2 ^ 128 := by
  refine ⟨by decide, ?_, ?_⟩ <;> decide

/-- C8: the claim fails on the `Mask` method.  At `u = {Lo 3, Hi 1}`,
`n = 4` the code masks only the low word: the high word survives, so the
bit at position `64 ≥ n` is still set instead of being cleared. -/
theorem uint128_mask_keeps_high_bits :
    Uint128.Mask ⟨3, 1⟩ 4 = ⟨3, 1⟩ ∧ (Uint128.Mask ⟨3, 1⟩ 4).Bit 64 = 1 := by
  constructor <;> decide

/-! ## `permute.go` — the seekable permutation -/

/-- Go `math/bits.LeadingZeros64` needs the binary length of its argument;
computed here by structural recursion (fuel 64 suffices for any `uint64`). -/
def bitLenFuel : Nat → Nat → Nat
  | 0, _ => 0
  | fuel + 1, m => if m = 0 then 0 else bitLenFuel fuel (m / 2) + 1

/-- Go `math/bits.LeadingZeros64`, modelled by its documented value:
`64 −` (binary length of `n`), for `n < 2^64`. -/
def leadingZeros64 (n : Nat) : Nat := 64 - bitLenFuel 64 n

/-- `NewPermutation`: `bits := 64 - bits.LeadingZeros64(uint64(max))`;
`rounds = 6 * bits`. -/
def permutationRounds (max : Nat) : Nat := 6 * (64 - leadingZeros64 max)

/-- `permute.go` `Permutation`: the per-instance state.  `counter` is an
`int64` in Go; every reachable state keeps it non-negative (`Nth` always
stores a non-negative index), so it is a `Nat` here.  `k` is the slice of
swap keys, one per round, accessed as a total function. -/
structure Permutation where
  src : Sequence
  permSeed : Nat
  max : Nat
  counter : Nat
  rounds : Nat
  bits : Uint128
  k : Nat → Nat

/-- The round loop of `nextValue` (`permute.go` lines 137–156), translated
clause by clause: `rem` is the number of rounds still to run, `i` the
absolute round index; `offset`, `prev` and `bits` are the cache state
(`prev` holds the `xCaret` whose block `bits` caches, `max + 1` meaning
none).  Returns the final `x` together with the final cached block (which
the Go code leaves in the struct field `p.bits`). -/
def permLoop (src : Sequence) (max : Nat) (k : Nat → Nat) :
    Nat → Nat → Nat → Uint128 → Nat → Uint128 → Nat × Uint128
  | 0, _, x, _, _, bits => (x, bits)
  | rem + 1, i, x, offset, prev, bits =>
    let offset1 := if 0 < i ∧ i % 128 = 0 then
        { offset with Hi := (offset.Hi + 1) % W64 } else offset
    let prev1 := if 0 < i ∧ i % 128 = 0 then max + 1 else prev
    let xPrime := (k i + max - x) % max
    let xCaret := if xPrime > x then xPrime else x
    let offset2 := if xCaret ≠ prev1 then { offset1 with Lo := xCaret } else offset1
    let bits2 := if xCaret ≠ prev1 then src offset2 else bits
    let prev2 := if xCaret ≠ prev1 then xCaret else prev1
    let x2 := if bits2.Bit i ≠ 0 then xPrime else x
    permLoop src max k rem (i + 1) x2 offset2 prev2 bits2

/-- `nextValue`: reduce the counter mod `max`, run the rounds from the
`PermutationF` offset, return the value and the advanced state. -/
def Permutation.nextValue (p : Permutation) : Nat × Permutation :=
  let c := p.counter % p.max
  let x := c
  let r := permLoop p.src p.max p.k p.rounds 0 x
    (OffsetFor SequencePermutationF p.permSeed 0 0) (p.max + 1) p.bits
  (r.1, { p with counter := c + 1, bits := r.2 })

/-- `Next`: `return p.nextValue()`. -/
def Permutation.Next (p : Permutation) : Nat × Permutation := p.nextValue

/-- `Nth`: for `n < 0`, `n = p.max + (n % p.max)` (Go `%` truncates, which
is `Int.tmod`); then `p.counter = n; return p.nextValue()`. -/
def Permutation.Nth (p : Permutation) (n : Int) : Nat × Permutation :=
  let n1 : Int := if n < 0 then (p.max : Int) + Int.tmod n (p.max : Int) else n
  Permutation.nextValue { p with counter := n1.toNat }

/-- State after `n` sequential `Next` calls. -/
def Permutation.nextN (p : Permutation) : Nat → Permutation
  | 0 => p
  | n + 1 => ((Permutation.nextN p n).Next).2

/-- Value returned by the `(n+1)`-th sequential `Next` call (`n` calls
already made). -/
def Permutation.nthNextValue (p : Permutation) (n : Nat) : Nat :=
  ((Permutation.nextN p n).Next).1

/-- The values of the first `count` sequential `Next` calls, in order. -/
def Permutation.nextValues (p : Permutation) (count : Nat) : List Nat :=
  (List.range count).map fun j => Permutation.nthNextValue p j

/-- A freshly constructed `Permutation` (counter 0, zero cached block),
with the swap keys `k` and round count left as parameters: `NewPermutation`
fills `rounds := permutationRounds max` and draws each `k i` below `max`. -/
def freshPerm (src : Sequence) (seed max rounds : Nat) (k : Nat → Nat) : Permutation :=
  { src := src, permSeed := seed, max := max, counter := 0, rounds := rounds,
    bits := ⟨0, 0⟩, k := k }

/-- The rejection search of `NewPermutation`'s key loop: advance the
iteration field until the sampled block's low word falls below
`maxMultiple`; returns the accepting offset, `none` when `fuel` runs out
(the Go loop would still be running). -/
def kSearch (src : Sequence) (maxMultiple : Nat) : Nat → Uint128 → Option Uint128
  | 0, _ => none
  | fuel + 1, offset =>
    if (src offset).Lo ≥ maxMultiple then
      kSearch src maxMultiple fuel { offset with Hi := (offset.Hi + 1) % W64 }
    else some offset

/-- The key loop of `NewPermutation`: `k[i] = BitsAt(offset).Lo % max` at
the accepting offset, for `rem` rounds starting at round index `i`. -/
def genKFrom (src : Sequence) (seed max maxMultiple fuel : Nat) :
    Nat → Nat → Option (List Nat)
  | 0, _ => some []
  | rem + 1, i =>
    match kSearch src maxMultiple fuel (OffsetFor SequencePermutationK seed 0 i) with
    | none => none
    | some off =>
      match genKFrom src seed max maxMultiple fuel rem (i + 1) with
      | none => none
      | some rest => some ((src off).Lo % max :: rest)

/-- The error message of `NewPermutation` for `max < 1`. -/
def periodErrMsg : String := "period must be positive"

/-- `NewPermutation(max, seed, src)`: error for `max < 1`, else draw the
swap keys (`maxMultiple = (^uint64(0) / max) * max`, rejection on the low
word) and build the instance.  The outer `Option` is the fuel of the
rejection loops: `none` stands for a run of the Go code that has not
terminated within `fuel` resamples. -/
def NewPermutation (max : Int) (seed : Nat) (src : Sequence) (fuel : Nat) :
    Option (Except String Permutation) :=
  if max < 1 then some (Except.error periodErrMsg)
  else
    let maxN := max.toNat
    let rounds := permutationRounds maxN
    let maxMultiple := (W64 - 1) / maxN * maxN
    match genKFrom src seed maxN maxMultiple fuel rounds 0 with
    | none => none
    | some ks =>
      some (Except.ok
        { src := src, permSeed := seed, max := maxN, counter := 0,
          rounds := rounds, bits := ⟨0, 0⟩, k := fun i => ks.getD i 0 })

/-- One round's partner: `xPrime = (k[i] + max − x) % max` (no `uint64`
wrap can occur in the Go expression, since `k[i] < max` and `x < max`). -/
def partnerOf (max k x : Nat) : Nat := (k + max - x) % max

/-- One conditional swap of `nextValue`, with the decision oracle
abstracted: swap to the partner exactly when the oracle fires on
`xCaret = max(x, xPrime)`. -/
def roundMap (max k : Nat) (dec : Nat → Bool) (x : Nat) : Nat :=
  if dec (if partnerOf max k x > x then partnerOf max k x else x) then
    partnerOf max k x
  else x

/-- The cache-free form of the round loop: same rounds, same decision
bits, but the block is refetched every round.  `permLoop_fst_eq_simple`
shows the cached loop computes the same value. -/
def permLoopS (src : Sequence) (max : Nat) (k : Nat → Nat) :
    Nat → Nat → Nat → Nat → Nat
  | 0, _, x, _ => x
  | rem + 1, i, x, offHi =>
    let offHi1 := if 0 < i ∧ i % 128 = 0 then (offHi + 1) % W64 else offHi
    let x2 := roundMap max (k i)
      (fun c => (Uint128.Bit (src { Lo := c, Hi := offHi1 }) i) ≠ 0) x
    permLoopS src max k rem (i + 1) x2 offHi1

theorem partnerOf_lt (max k x : Nat) (hm : 0 < max) : partnerOf max k x < max :=
  Nat.mod_lt _ hm

theorem partnerOf_partnerOf (max k x : Nat) (hx : x < max) :
    partnerOf max k (partnerOf max k x) = x := by
  unfold partnerOf
  have hm : 0 < max := by omega
  set a := k + max - x with ha
  have hdm := Nat.div_add_mod a max
  have hlt : a % max < max := Nat.mod_lt _ hm
  have h1 : k + max - a % max = x + max * (a / max) := by omega
  rw [h1, Nat.add_mul_mod_self_left, Nat.mod_eq_of_lt hx]

theorem roundMap_invol (max k : Nat) (dec : Nat → Bool) (x : Nat)
    (hx : x < max) (hm : 0 < max) :
    roundMap max k dec (roundMap max k dec x) = x := by
  have hpp := partnerOf_partnerOf max k x hx
  unfold roundMap
  by_cases hd : dec (if partnerOf max k x > x then partnerOf max k x else x)
  · rw [if_pos hd, hpp]
    have hc : (if x > partnerOf max k x then x else partnerOf max k x)
        = (if partnerOf max k x > x then partnerOf max k x else x) := by
      rcases Nat.lt_trichotomy x (partnerOf max k x) with h | h | h
      · rw [if_neg (by omega), if_pos h]
      · rw [if_neg (by omega), if_neg (by omega)]; omega
      · rw [if_pos h, if_neg (by omega)]
    rw [hc, if_pos hd]
  · rw [if_neg hd, if_neg hd]

theorem roundMap_lt (max k : Nat) (dec : Nat → Bool) (x : Nat)
    (hx : x < max) (hm : 0 < max) : roundMap max k dec x < max := by
  unfold roundMap
  by_cases hd : dec (if partnerOf max k x > x then partnerOf max k x else x) <;>
    simp [hd, partnerOf_lt max k x hm, hx]

theorem roundMap_inj (max k : Nat) (dec : Nat → Bool) (x y : Nat)
    (hx : x < max) (hy : y < max) (hm : 0 < max)
    (h : roundMap max k dec x = roundMap max k dec y) : x = y := by
  have hxx := roundMap_invol max k dec x hx hm
  have hyy := roundMap_invol max k dec y hy hm
  rw [← hxx, ← hyy, h]

theorem permLoopS_lt (src : Sequence) (max : Nat) (k : Nat → Nat) :
    ∀ rem i x offHi, x < max → permLoopS src max k rem i x offHi < max := by
  intro rem
  induction rem with
  | zero => intro i x offHi hx; simpa [permLoopS] using hx
  | succ rem ih =>
    intro i x offHi hx
    have hm : 0 < max := by omega
    simp only [permLoopS]
    exact ih _ _ _ (roundMap_lt _ _ _ _ hx hm)

theorem permLoopS_inj (src : Sequence) (max : Nat) (k : Nat → Nat) :
    ∀ rem i offHi x y, x < max → y < max →
      permLoopS src max k rem i x offHi = permLoopS src max k rem i y offHi →
      x = y := by
  intro rem
  induction rem with
  | zero => intro i offHi x y hx hy h; simpa [permLoopS] using h
  | succ rem ih =>
    intro i offHi x y hx hy h
    have hm : 0 < max := by omega
    simp only [permLoopS] at h
    exact roundMap_inj _ _ _ _ _ hx hy hm
      (ih _ _ _ _ (roundMap_lt _ _ _ _ hx hm) (roundMap_lt _ _ _ _ hy hm) h)


/-- The cached round loop of `nextValue` computes the same value as the
cache-free loop: when the cache is marked valid (`prev ≠ max + 1`) the
cached block equals the block a fresh fetch at the current offset would
return, so the decision bits agree round by round; in particular the
initial content of the struct field `p.bits` never influences the value. -/
theorem permLoop_fst_eq_simple (src : Sequence) (max : Nat) (k : Nat → Nat) :
    ∀ rem i x offset prev bits, 0 < max → x < max →
      (prev = max + 1 ∨ (prev < max ∧ offset.Lo = prev ∧ bits = src offset)) →
      (permLoop src max k rem i x offset prev bits).1 =
        permLoopS src max k rem i x offset.Hi := by
  intro rem
  induction rem with
  | zero => intro i x offset prev bits _ _ _; rfl
  | succ rem ih =>
    intro i x offset prev bits hm hx hinv
    obtain ⟨oLo, oHi⟩ := offset
    simp only [permLoop, permLoopS, roundMap, partnerOf]
    by_cases hb : 0 < i ∧ i % 128 = 0
    · simp only [if_pos hb]
      set xP := (k i + max - x) % max with hxP
      have hxPlt : xP < max := Nat.mod_lt _ hm
      set xC := if xP > x then xP else x with hxC
      have hxClt : xC < max := by rw [hxC]; split <;> omega
      have hne : xC ≠ max + 1 := by omega
      simp only [if_pos hne]
      set x2 := if (src ⟨xC, (oHi + 1) % W64⟩).Bit i ≠ 0 then xP else x with hx2
      have hx2lt : x2 < max := by rw [hx2]; split <;> omega
      have hdec : (if (decide ((src ⟨xC, (oHi + 1) % W64⟩).Bit i ≠ 0)) = true
          then xP else x) = x2 := by
        rw [hx2]; simp only [decide_eq_true_eq]
      rw [hdec, ih (i + 1) x2 ⟨xC, (oHi + 1) % W64⟩ xC (src ⟨xC, (oHi + 1) % W64⟩)
        hm hx2lt (Or.inr ⟨hxClt, rfl, rfl⟩)]
    · simp only [if_neg hb]
      set xP := (k i + max - x) % max with hxP
      have hxPlt : xP < max := Nat.mod_lt _ hm
      set xC := if xP > x then xP else x with hxC
      have hxClt : xC < max := by rw [hxC]; split <;> omega
      by_cases hf : xC ≠ prev
      · simp only [if_pos hf]
        set x2 := if (src ⟨xC, oHi⟩).Bit i ≠ 0 then xP else x with hx2
        have hx2lt : x2 < max := by rw [hx2]; split <;> omega
        have hdec : (if (decide ((src ⟨xC, oHi⟩).Bit i ≠ 0)) = true
            then xP else x) = x2 := by
          rw [hx2]; simp only [decide_eq_true_eq]
        rw [hdec, ih (i + 1) x2 ⟨xC, oHi⟩ xC (src ⟨xC, oHi⟩)
          hm hx2lt (Or.inr ⟨hxClt, rfl, rfl⟩)]
      · push_neg at hf
        obtain ⟨hplt, hpLo, hpbits⟩ : prev < max ∧ oLo = prev ∧ bits = src ⟨oLo, oHi⟩ := by
          rcases hinv with h | h
          · omega
          · exact h
        simp only [if_neg (not_not_intro hf)]
        have hbits2 : bits = src ⟨xC, oHi⟩ := by rw [hpbits, hpLo, ← hf]
        set x2 := if bits.Bit i ≠ 0 then xP else x with hx2
        have hx2lt : x2 < max := by rw [hx2]; split <;> omega
        have hdec : (if (decide ((src ⟨xC, oHi⟩).Bit i ≠ 0)) = true
            then xP else x) = x2 := by
          rw [hx2, hbits2]; simp only [decide_eq_true_eq]
        rw [hdec, ih (i + 1) x2 ⟨oLo, oHi⟩ prev bits hm hx2lt
          (Or.inr ⟨hplt, hpLo, hpbits⟩)]

/-- The value `nextValue` returns when the stored counter is `c`, on an
instance with the given parameters; by `permLoop_fst_eq_simple` the other
mutable state (`bits`) cannot influence it. -/
def permAt (src : Sequence) (seed max rounds : Nat) (k : Nat → Nat) (c : Nat) : Nat :=
  (Permutation.nextValue { freshPerm src seed max rounds k with counter := c }).1

theorem permAt_eq_simple (src : Sequence) (seed max rounds : Nat) (k : Nat → Nat)
    (c : Nat) (hm : 0 < max) :
    permAt src seed max rounds k c =
      permLoopS src max k rounds 0 (c % max)
        (OffsetFor SequencePermutationF seed 0 0).Hi := by
  simp only [permAt, Permutation.nextValue, freshPerm]
  exact permLoop_fst_eq_simple src max k rounds 0 (c % max) _ (max + 1) ⟨0, 0⟩
    hm (Nat.mod_lt _ hm) (Or.inl rfl)

theorem permAt_lt (src : Sequence) (seed max rounds : Nat) (k : Nat → Nat)
    (c : Nat) (hm : 0 < max) : permAt src seed max rounds k c < max := by
  rw [permAt_eq_simple src seed max rounds k c hm]
  exact permLoopS_lt src max k rounds 0 (c % max) _ (Nat.mod_lt _ hm)

theorem permAt_inj (src : Sequence) (seed max rounds : Nat) (k : Nat → Nat)
    (c₁ c₂ : Nat) (h₁ : c₁ < max) (h₂ : c₂ < max)
    (h : permAt src seed max rounds k c₁ = permAt src seed max rounds k c₂) :
    c₁ = c₂ := by
  have hm : 0 < max := by omega
  rw [permAt_eq_simple src seed max rounds k c₁ hm,
    permAt_eq_simple src seed max rounds k c₂ hm,
    Nat.mod_eq_of_lt h₁, Nat.mod_eq_of_lt h₂] at h
  exact permLoopS_inj src max k rounds 0 _ c₁ c₂ h₁ h₂ h

/-- `nextValue` as a self-map of `[0, max)`: counter in, value out. -/
def permFn (src : Sequence) (seed max rounds : Nat) (k : Nat → Nat)
    (c : Fin max) : Fin max :=
  ⟨permAt src seed max rounds k c.val,
    permAt_lt src seed max rounds k c.val (Nat.lt_of_le_of_lt (Nat.zero_le _) c.isLt)⟩

/-- The value of any `nextValue` call is determined by the counter alone
(together with the construction parameters): the cached block in `p.bits`
does not matter. -/
theorem nextValue_fst_eq_permAt (p : Permutation) (hm : 0 < p.max) :
    (p.nextValue).1 = permAt p.src p.permSeed p.max p.rounds p.k p.counter := by
  rw [permAt_eq_simple _ _ _ _ _ _ hm]
  exact permLoop_fst_eq_simple p.src p.max p.k p.rounds 0 (p.counter % p.max) _
    (p.max + 1) p.bits hm (Nat.mod_lt _ hm) (Or.inl rfl)

/-- After `j ≤ max` sequential `Next` calls on a fresh instance the
counter is exactly `j` (and only `counter` and `bits` have changed). -/
theorem nextN_fresh_state (src : Sequence) (seed max rounds : Nat) (k : Nat → Nat) :
    ∀ j, j ≤ max →
      ∃ b, Permutation.nextN (freshPerm src seed max rounds k) j =
        { src := src, permSeed := seed, max := max, counter := j,
          rounds := rounds, bits := b, k := k } := by
  intro j
  induction j with
  | zero => intro _; exact ⟨⟨0, 0⟩, rfl⟩
  | succ j ih =>
    intro hj
    obtain ⟨b, hb⟩ := ih (by omega)
    simp only [Permutation.nextN, Permutation.Next, hb, Permutation.nextValue]
    rw [Nat.mod_eq_of_lt (show j < max by omega)]
    exact ⟨_, rfl⟩

/-- The `(j+1)`-th `Next` value on a fresh instance is the value at
counter `j`, for `j < max`. -/
theorem nthNextValue_fresh (src : Sequence) (seed max rounds : Nat) (k : Nat → Nat)
    (j : Nat) (hj : j < max) :
    Permutation.nthNextValue (freshPerm src seed max rounds k) j =
      permAt src seed max rounds k j := by
  obtain ⟨b, hb⟩ := nextN_fresh_state src seed max rounds k j (by omega)
  have hm : 0 < max := by omega
  simp only [Permutation.nthNextValue, Permutation.Next, hb]
  rw [nextValue_fst_eq_permAt _ (by simpa [freshPerm] using hm)]

/-- C1: for every `max`, `permSeed`, `Sequence` — and in fact every round
count and every choice of swap keys, which covers the freshly constructed
instance, whose keys are drawn in `[0, max)` — `nextValue` is a bijection
of `[0, max)` in its counter, and the first `max` sequential `Next` calls
on a fresh `Permutation` return every value of `[0, max)` exactly once
(their list is a permutation of `range max`). -/
theorem permutation_fresh_bijection (src : Sequence) (seed max rounds : Nat)
    (k : Nat → Nat) :
    Function.Bijective (permFn src seed max rounds k) ∧
      (Permutation.nextValues (freshPerm src seed max rounds k) max).Perm
        (List.range max) := by
  have hinj : Function.Injective (permFn src seed max rounds k) := by
    intro c₁ c₂ h
    have hv : permAt src seed max rounds k c₁.val
        = permAt src seed max rounds k c₂.val := congrArg Fin.val h
    exact Fin.ext (permAt_inj src seed max rounds k _ _ c₁.isLt c₂.isLt hv)
  constructor
  · exact Finite.injective_iff_bijective.mp hinj
  · have hmap : Permutation.nextValues (freshPerm src seed max rounds k) max
        = (List.range max).map (permAt src seed max rounds k) := by
      unfold Permutation.nextValues
      exact List.map_congr_left fun j hj =>
        nthNextValue_fresh src seed max rounds k j (List.mem_range.mp hj)
    rw [hmap]
    have hnodup : ((List.range max).map (permAt src seed max rounds k)).Nodup := by
      refine List.Nodup.map_on ?_ (List.nodup_range max)
      intro x hx y hy hxy
      exact permAt_inj src seed max rounds k x y
        (List.mem_range.mp hx) (List.mem_range.mp hy) hxy
    have hsub : (List.range max).map (permAt src seed max rounds k) ⊆
        List.range max := by
      intro v hv
      obtain ⟨j, hj, rfl⟩ := List.mem_map.mp hv
      exact List.mem_range.mpr
        (permAt_lt src seed max rounds k j
          (Nat.lt_of_le_of_lt (Nat.zero_le _) (List.mem_range.mp hj)))
    exact (List.subperm_of_subset hnodup hsub).perm_of_length_le
      (by simp)

/-- C2: on a fresh permutation, `Nth N` (for `0 ≤ N < max`) returns the
same value as the `(N+1)`-th sequential `Next` call on an equally fresh
permutation. -/
theorem permutation_nth_eq_iterated_next (src : Sequence) (seed max rounds : Nat)
    (k : Nat → Nat) (N : Nat) (hN : N < max) :
    (Permutation.Nth (freshPerm src seed max rounds k) (N : Int)).1 =
      Permutation.nthNextValue (freshPerm src seed max rounds k) N := by
  rw [nthNextValue_fresh src seed max rounds k N hN]
  simp only [Permutation.Nth, if_neg (by omega : ¬ (N : Int) < 0), Int.toNat_natCast]
  rfl

/-- Witness for C2: concrete instances evaluate and agree. -/
theorem permutation_nth_eq_iterated_next_witness :
    (Permutation.Nth (freshPerm (fun _ => ⟨0, 0⟩) 0 2 12 (fun _ => 0)) (1 : Int)).1 =
      Permutation.nthNextValue (freshPerm (fun _ => ⟨0, 0⟩) 0 2 12 (fun _ => 0)) 1 :=
  permutation_nth_eq_iterated_next (fun _ => ⟨0, 0⟩) 0 2 12 (fun _ => 0) 1 (by decide)

/-- `bitLenFuel` computes the binary length: `2^(L-1) ≤ m < 2^L` for
`0 < m < 2^fuel`. -/
theorem bitLenFuel_spec : ∀ fuel m, 0 < m → m < 2 ^ fuel →
    2 ^ (bitLenFuel fuel m - 1) ≤ m ∧ m < 2 ^ bitLenFuel fuel m := by
  intro fuel
  induction fuel with
  | zero => intro m h1 h2; omega
  | succ fuel ih =>
    intro m h1 h2
    simp only [bitLenFuel, if_neg (by omega : ¬ m = 0)]
    by_cases hone : m = 1
    · subst hone
      have h0 : bitLenFuel fuel (1 / 2) = 0 := by
        cases fuel <;> simp [bitLenFuel]
      rw [h0]
      norm_num
    · have hm2 : 2 ≤ m := by omega
      have hh1 : 0 < m / 2 := by omega
      have hh2 : m / 2 < 2 ^ fuel := by
        have hp : 2 ^ (fuel + 1) = 2 ^ fuel * 2 := by rw [Nat.pow_succ]
        omega
      obtain ⟨ha, hb⟩ := ih (m / 2) hh1 hh2
      have hLpos : 0 < bitLenFuel fuel (m / 2) := by
        rcases Nat.eq_zero_or_pos (bitLenFuel fuel (m / 2)) with h0 | h0
        · rw [h0] at hb; simp at hb; omega
        · exact h0
      constructor
      · have hexp : 2 ^ (bitLenFuel fuel (m / 2) + 1 - 1)
            = 2 ^ (bitLenFuel fuel (m / 2) - 1) * 2 := by
          rw [Nat.add_sub_cancel, ← Nat.pow_succ, Nat.succ_eq_add_one,
            Nat.sub_add_cancel hLpos]
        omega
      · have hexp : 2 ^ (bitLenFuel fuel (m / 2) + 1)
            = 2 ^ bitLenFuel fuel (m / 2) * 2 := by rw [Nat.pow_succ]
        omega

/-- C6, counterexample: the claim's own example fails.  `max = 8` gives
`64 − LeadingZeros64(8) = 4` bits, hence `24` rounds, not the claimed
`6·⌈log₂ 8⌉ = 18`. -/
theorem permutation_rounds_max8_ne_18 :
    permutationRounds 8 = 24 ∧ permutationRounds 8 ≠ 18 := by
  constructor <;> decide

/-- C6, amended: the number of rounds is `6 · (⌊log₂ max⌋ + 1)` — six times
the binary length of `max` — which agrees with `6·⌈log₂ max⌉` except when
`max` is a power of two (`max = 8` gives 24, `max = 1` gives 6). -/
theorem permutation_rounds_eq (max : Nat) (h1 : 0 < max) (h2 : max < 2 ^ 64) :
    permutationRounds max = 6 * (Nat.log 2 max + 1) := by
  obtain ⟨ha, hb⟩ := bitLenFuel_spec 64 max h1 h2
  have hLpos : 0 < bitLenFuel 64 max := by
    rcases Nat.eq_zero_or_pos (bitLenFuel 64 max) with h0 | h0
    · rw [h0] at hb; simp at hb; omega
    · exact h0
  have hlog : Nat.log 2 max = bitLenFuel 64 max - 1 := by
    refine Nat.log_eq_of_pow_le_of_lt_pow ha ?_
    rwa [Nat.sub_add_cancel hLpos]
  have hle : bitLenFuel 64 max ≤ 64 := by
    by_contra hgt
    push_neg at hgt
    have : 2 ^ 64 ≤ 2 ^ (bitLenFuel 64 max - 1) :=
      Nat.pow_le_pow_right (by omega) (by omega)
    omega
  unfold permutationRounds leadingZeros64
  omega

/-- Witness for C6's amended formula: `max = 8` gives `6 · (3 + 1) = 24`. -/
theorem permutation_rounds_eq_witness :
    permutationRounds 8 = 6 * (Nat.log 2 8 + 1) :=
  permutation_rounds_eq 8 (by decide) (by norm_num)


/-- The decision oracle as the spec (and the comment in `permute.go` about
recycling the 128 bits for rounds 129+) describes it: the decision for
round `i` is bit `(i % 128)` of the block fetched at the current offset
(iteration field `i / 128`, low word `xCaret`).  Stated cache-free, as in
the spec; identical to `permLoopS` except for the bit position consulted. -/
def permLoopOracle (src : Sequence) (max : Nat) (k : Nat → Nat) :
    Nat → Nat → Nat → Nat → Nat
  | 0, _, x, _ => x
  | rem + 1, i, x, offHi =>
    let offHi1 := if 0 < i ∧ i % 128 = 0 then (offHi + 1) % W64 else offHi
    let x2 := roundMap max (k i)
      (fun c => (Uint128.Bit (src { Lo := c, Hi := offHi1 }) (i % 128)) ≠ 0) x
    permLoopOracle src max k rem (i + 1) x2 offHi1

/-- The concrete instance exhibiting C5's divergence: `max = 2^21` (so
`NewPermutation` sets `rounds = 132 > 128`), all swap keys 0, and a
keystream whose every block has exactly bit 0 set. -/
def cex5 : Permutation :=
  { src := fun _ => ⟨1, 0⟩, permSeed := 0, max := 2097152, counter := 1,
    rounds := 132, bits := ⟨0, 0⟩, k := fun _ => 0 }

set_option maxRecDepth 8000 in
set_option maxHeartbeats 2000000 in
/-- C5: the code contradicts the claimed decision oracle.  In `cex5`
every block is `{Lo 1, Hi 0}`: per the claim the decision for round `r`
is bit `(r mod 128)` of the refetched block, so round 128 consults bit 0
(= 1) and swaps again — but the code consults `p.bits.Bit(i)` with the
absolute round index, and `Uint128.Bit` returns 0 for every `i ≥ 128`, so
rounds 128–131 never swap.  Starting at counter 1 the code returns
`max − 1 = 2097151` while the claimed oracle returns `1`; and
`permutationRounds` confirms this `max` does have 132 > 128 rounds. -/
theorem permutation_bit_oracle_divergence :
    (Permutation.nextValue cex5).1 = 2097151 ∧
      permLoopOracle cex5.src cex5.max cex5.k cex5.rounds 0 1
        (OffsetFor SequencePermutationF 0 0 0).Hi = 1 ∧
      permutationRounds 2097152 = 132 := by
  refine ⟨?_, by decide, by decide⟩
  rw [nextValue_fst_eq_permAt cex5 (by decide),
    permAt_eq_simple _ _ _ _ _ _ (by decide)]
  decide

/-! ## The Zipf sampler source file -/

/-- Abstract IEEE-754 `float64` carrier and the operations the Zipf code
uses.  The claims proved below are control-flow and state properties that
hold for every interpretation of these operations, so no numeric model is
fixed.  `c0_5`, `c1_5`, `two53` stand for the literals `0.5`, `1.5`,
`1 << 53`; `ofNat` for Go's `float64(·)` of a `uint64`; `toUint64` for
Go's `uint64(·)` of a `float64`. -/
structure FloatOps where
  F : Type
  zero : F
  one : F
  c0_5 : F
  c1_5 : F
  two53 : F
  add : F → F → F
  sub : F → F → F
  mul : F → F → F
  div : F → F → F
  neg : F → F
  exp : F → F
  log : F → F
  floor : F → F
  ofNat : Nat → F
  toUint64 : F → Nat
  isNaN : F → Bool
  le : F → F → Bool
  lt : F → F → Bool
  ge : F → F → Bool

/-- The `Zipf` struct: `src`, `seed`, the parameters `q`, `v`, `max`, the
five precomputed doubles, and the mutable index `idx` (a `uint64`). -/
structure Zipf (FO : FloatOps) where
  src : Sequence
  seed : Nat
  q : FO.F
  v : FO.F
  max : FO.F
  oneMinusQ : FO.F
  oneOverOneMinusQ : FO.F
  hImaxOneHalf : FO.F
  hX0MinusHImaxOneHalf : FO.F
  s : FO.F
  idx : Nat

/-- Helper `h` of the Zipf source:
`exp(oneMinusQ * log(v + x)) * oneOverOneMinusQ`. -/
def Zipf.h {FO : FloatOps} (z : Zipf FO) (x : FO.F) : FO.F :=
  FO.mul (FO.exp (FO.mul z.oneMinusQ (FO.log (FO.add z.v x)))) z.oneOverOneMinusQ

/-- Helper `hInv` of the Zipf source:
`-v + exp(oneOverOneMinusQ * log(oneMinusQ * x))`. -/
def Zipf.hInv {FO : FloatOps} (z : Zipf FO) (x : FO.F) : FO.F :=
  FO.add (FO.neg z.v) (FO.exp (FO.mul z.oneOverOneMinusQ (FO.log (FO.mul z.oneMinusQ x))))

/-- The three error cases of `NewZipf`, in source order.  (Go formats the
offending values into the message with `%g`; the text is elided here.) -/
inductive ZipfError where
  | nanParam
  | rangeParam
  | nilSequence
deriving DecidableEq, Repr

/-- `NewZipf(q, v, max, seed, src)`: reject NaN `q`/`v`, then `q ≤ 1` or
`v < 1`, then a nil sequence; otherwise precompute the five doubles in
source order and return the instance (`idx = 0`). -/
def NewZipf (FO : FloatOps) (q v : FO.F) (max : Nat) (seed : Nat)
    (src : Option Sequence) : Except ZipfError (Zipf FO) :=
  if FO.isNaN q || FO.isNaN v then Except.error ZipfError.nanParam
  else if FO.le q FO.one || FO.lt v FO.one then Except.error ZipfError.rangeParam
  else
    match src with
    | none => Except.error ZipfError.nilSequence
    | some srcFn =>
      let oneMinusQ := FO.sub FO.one q
      let oneOverOneMinusQ := FO.div FO.one (FO.sub FO.one q)
      let z0 : Zipf FO :=
        { src := srcFn, seed := seed, q := q, v := v, max := FO.ofNat max,
          oneMinusQ := oneMinusQ, oneOverOneMinusQ := oneOverOneMinusQ,
          hImaxOneHalf := FO.zero, hX0MinusHImaxOneHalf := FO.zero,
          s := FO.zero, idx := 0 }
      let hX0 := FO.sub (z0.h FO.c0_5) (FO.exp (FO.mul (FO.log v) (FO.neg q)))
      let z1 := { z0 with hImaxOneHalf := z0.h (FO.add z0.max FO.c0_5) }
      let z2 := { z1 with hX0MinusHImaxOneHalf := FO.sub hX0 z1.hImaxOneHalf }
      let z3 := { z2 with s := FO.sub FO.one (z2.hInv (FO.sub (z2.h FO.c1_5)
        (FO.exp (FO.mul (FO.log (FO.add v FO.one)) (FO.neg q))))) }
      Except.ok z3

/-- The rejection loop of `Zipf.Nth` (fuel-bounded): draw the block at
`offset`, form the uniform from its low 53 bits, transform, and accept by
the fast or the full test, else increment the iteration field and retry. -/
def Zipf.nthLoop {FO : FloatOps} (z : Zipf FO) : Nat → Uint128 → Option Nat
  | 0, _ => none
  | fuel + 1, offset =>
    let bits := z.src offset
    let uInt := bits.Lo
    let u0 := FO.div (FO.ofNat (uInt &&& (2 ^ 53 - 1))) FO.two53
    let u := FO.add z.hImaxOneHalf (FO.mul u0 z.hX0MinusHImaxOneHalf)
    let x := z.hInv u
    let kVar := FO.floor (FO.add x FO.c0_5)
    if FO.le (FO.sub kVar x) z.s then some (FO.toUint64 kVar)
    else if FO.ge u (FO.sub (z.h (FO.add kVar FO.c0_5))
        (FO.exp (FO.mul (FO.neg (FO.log (FO.add z.v kVar))) z.q))) then
      some (FO.toUint64 kVar)
    else Zipf.nthLoop z fuel { offset with Hi := (offset.Hi + 1) % W64 }

/-- `Zipf.Nth(index)`: store `idx = index`, then run the rejection loop
from `offset_for(ZipfU, seed, 0, index)`.  Returns the sampled value
(`none` = the Go loop did not accept within `fuel` iterations) and the
updated instance. -/
def Zipf.Nth {FO : FloatOps} (z : Zipf FO) (index : Nat) (fuel : Nat) :
    Option Nat × Zipf FO :=
  let z1 := { z with idx := index }
  (Zipf.nthLoop z1 fuel (OffsetFor SequenceZipfU z1.seed 0 index), z1)

/-- `Zipf.Next()`: `return z.Nth(z.idx + 1)` (the `uint64` increment
wraps modulo `2^64`). -/
def Zipf.Next {FO : FloatOps} (z : Zipf FO) (fuel : Nat) :
    Option Nat × Zipf FO :=
  Zipf.Nth z ((z.idx + 1) % W64) fuel

/-- The rejection loop never reads the mutable index `idx`: its result is
unchanged if `idx` is overwritten. -/
theorem Zipf.nthLoop_idx_irrel {FO : FloatOps} (z : Zipf FO) (j : Nat) :
    ∀ fuel offset,
      Zipf.nthLoop { z with idx := j } fuel offset = Zipf.nthLoop z fuel offset := by
  intro fuel
  induction fuel with
  | zero => intro offset; rfl
  | succ fuel ih =>
    intro offset
    simp only [Zipf.nthLoop, Zipf.h, Zipf.hInv]
    rw [ih]

/-- The value `Nth` returns does not depend on the stored index. -/
theorem Zipf.Nth_fst_idx_irrel {FO : FloatOps} (z : Zipf FO) (j index fuel : Nat) :
    (Zipf.Nth { z with idx := j } index fuel).1 = (Zipf.Nth z index fuel).1 := by
  simp only [Zipf.Nth]

/-- One entry of a call history: a `Next()` call or an `Nth(n)` call. -/
inductive ZipfCall where
  | nextCall
  | nthCall (n : Nat)

/-- Run a history of calls for their state effect.  (The state component
of `Nth`/`Next` does not depend on the loop fuel, so fuel 0 is used.) -/
def Zipf.runCalls {FO : FloatOps} (z : Zipf FO) : List ZipfCall → Zipf FO
  | [] => z
  | ZipfCall.nextCall :: rest => Zipf.runCalls (Zipf.Next z 0).2 rest
  | ZipfCall.nthCall n :: rest => Zipf.runCalls (Zipf.Nth z n 0).2 rest

/-- Any history of `Next`/`Nth` calls changes only `idx`. -/
theorem Zipf.runCalls_eq {FO : FloatOps} :
    ∀ (calls : List ZipfCall) (z : Zipf FO),
      ∃ j, Zipf.runCalls z calls = { z with idx := j } := by
  intro calls
  induction calls with
  | nil => intro z; exact ⟨z.idx, rfl⟩
  | cons c rest ih =>
    intro z
    cases c with
    | nextCall => exact ⟨(ih (Zipf.Next z 0).2).choose, (ih (Zipf.Next z 0).2).choose_spec⟩
    | nthCall n => exact ⟨(ih (Zipf.Nth z n 0).2).choose, (ih (Zipf.Nth z n 0).2).choose_spec⟩

/-- C3: `Nth(N)` is invariant under prior calls — after any two histories
of `Next`/`Nth` calls on instances with the same construction parameters,
`Nth(N)` returns the same value (for the same fuel bound). -/
theorem zipf_nth_history_invariant (FO : FloatOps) (z : Zipf FO)
    (calls1 calls2 : List ZipfCall) (N fuel : Nat) :
    (Zipf.Nth (Zipf.runCalls z calls1) N fuel).1 =
      (Zipf.Nth (Zipf.runCalls z calls2) N fuel).1 := by
  obtain ⟨j1, h1⟩ := Zipf.runCalls_eq calls1 z
  obtain ⟨j2, h2⟩ := Zipf.runCalls_eq calls2 z
  rw [h1, h2, Zipf.Nth_fst_idx_irrel z j1, Zipf.Nth_fst_idx_irrel z j2]

/-- The instance after `m` sequential `Next` calls (state effect only). -/
def zipfNexts {FO : FloatOps} (z : Zipf FO) : Nat → Zipf FO
  | 0 => z
  | m + 1 => (Zipf.Next (zipfNexts z m) 0).2

/-- After `m` `Next` calls the stored index is `(idx + m) mod 2^64` and
nothing else has changed. -/
theorem zipfNexts_idx {FO : FloatOps} (z : Zipf FO) (hz : z.idx < W64) :
    ∀ m, zipfNexts z m = { z with idx := (z.idx + m) % W64 } := by
  intro m
  induction m with
  | zero => simp [zipfNexts, Nat.mod_eq_of_lt hz]
  | succ m ih =>
    have hmod : ((z.idx + m) % W64 + 1) % W64 = (z.idx + (m + 1)) % W64 := by
      rw [Nat.mod_add_mod, Nat.add_assoc]
    rw [zipfNexts, ih]
    simp only [Zipf.Next, Zipf.Nth]
    rw [hmod]

/-- A trivial float interpretation, used only to instantiate concrete
counterexamples: every operation is constant. -/
def FOunit : FloatOps :=
  { F := Unit, zero := (), one := (), c0_5 := (), c1_5 := (), two53 := (),
    add := fun _ _ => (), sub := fun _ _ => (), mul := fun _ _ => (),
    div := fun _ _ => (), neg := fun _ => (), exp := fun _ => (),
    log := fun _ => (), floor := fun _ => (), ofNat := fun _ => (),
    toUint64 := fun _ => 0, isNaN := fun _ => false,
    le := fun _ _ => true, lt := fun _ _ => false, ge := fun _ _ => true }

/-- A concrete fresh Zipf instance over `FOunit` (`idx = 0`). -/
def zUnit : Zipf FOunit :=
  { src := fun _ => ⟨0, 0⟩, seed := 0, q := (), v := (), max := (),
    oneMinusQ := (), oneOverOneMinusQ := (), hImaxOneHalf := (),
    hX0MinusHImaxOneHalf := (), s := (), idx := 0 }

/-- C10, counterexample: on a fresh Zipf the `2^64`-th sequential `Next`
call is exactly an `Nth(0)` call — after `2^64 − 1` `Next` calls the
stored index is `2^64 − 1`, and the `uint64` increment in `Next` wraps to
0 — so the variate at index 0 is produced by `Next()` calls alone. -/
theorem zipf_next_wraps_to_index_zero :
    (zipfNexts zUnit (W64 - 1)).idx = W64 - 1 ∧
      Zipf.Next (zipfNexts zUnit (W64 - 1)) 1 =
        Zipf.Nth (zipfNexts zUnit (W64 - 1)) 0 1 := by
  have hz : zUnit.idx < W64 := by norm_num [zUnit, W64]
  have hidx : (zipfNexts zUnit (W64 - 1)).idx = W64 - 1 := by
    rw [zipfNexts_idx zUnit hz (W64 - 1)]
    show (zUnit.idx + (W64 - 1)) % W64 = W64 - 1
    norm_num [zUnit, W64]
  refine ⟨hidx, ?_⟩
  show Zipf.Nth _ (((zipfNexts zUnit (W64 - 1)).idx + 1) % W64) 1 = _
  rw [hidx]
  have hw : (W64 - 1 + 1) % W64 = 0 := by
    rw [Nat.sub_add_cancel (by norm_num [W64]), Nat.mod_self]
  rw [hw]

/-- C10, amended: `Next()` returns `Nth((idx + 1) mod 2^64)`; on a fresh
instance the first `Next` returns `Nth(1)`, and the `m`-th `Next` call
(for `1 ≤ m < 2^64`) returns `Nth(m)`, so the variate at index 0 is not
produced by fewer than `2^64` `Next` calls alone — the `2^64`-th call
wraps the `uint64` index and does produce it
(`zipf_next_wraps_to_index_zero`). -/
theorem zipf_next_is_nth_succ (FO : FloatOps) (z : Zipf FO) (fuel : Nat) :
    Zipf.Next z fuel = Zipf.Nth z ((z.idx + 1) % W64) fuel ∧
      (z.idx = 0 → Zipf.Next z fuel = Zipf.Nth z 1 fuel) ∧
      (∀ m, 0 < m → m < W64 → z.idx = 0 →
        Zipf.Next (zipfNexts z (m - 1)) fuel =
          Zipf.Nth (zipfNexts z (m - 1)) m fuel) := by
  refine ⟨rfl, ?_, ?_⟩
  · intro h0
    show Zipf.Nth z ((z.idx + 1) % W64) fuel = Zipf.Nth z 1 fuel
    rw [h0]
    norm_num [W64]
  · intro m hm1 hm2 h0
    have hidx : (zipfNexts z (m - 1)).idx = m - 1 := by
      rw [zipfNexts_idx z (by rw [h0]; norm_num [W64]) (m - 1), h0]
      show (0 + (m - 1)) % W64 = m - 1
      rw [Nat.zero_add, Nat.mod_eq_of_lt (by omega)]
    show Zipf.Nth _ (((zipfNexts z (m - 1)).idx + 1) % W64) fuel = _
    rw [hidx, Nat.sub_add_cancel hm1, Nat.mod_eq_of_lt hm2]

/-- C9: construction fails exactly on invalid parameters, with no partial
object.  `NewZipf` returns an error iff `q` or `v` is NaN, `q ≤ 1`,
`v < 1`, or the sequence is nil, and otherwise returns an instance;
`NewPermutation` returns an error iff `max < 1`, that error carries the
message `"period must be positive"`, and for `max ≥ 1` whatever it
returns is an instance, never an error.  (`Except` models the Go
`(object, error)` pair: exactly one side is ever non-nil.) -/
theorem construction_error_conditions (FO : FloatOps) (q v : FO.F)
    (zmax zseed : Nat) (zsrc : Option Sequence) (pmax : Int) (pseed : Nat)
    (psrc : Sequence) (fuel : Nat) :
    ((∃ e, NewZipf FO q v zmax zseed zsrc = Except.error e) ↔
      (FO.isNaN q || FO.isNaN v || FO.le q FO.one || FO.lt v FO.one
        || zsrc.isNone) = true) ∧
    ((∃ z, NewZipf FO q v zmax zseed zsrc = Except.ok z) ↔
      (FO.isNaN q || FO.isNaN v || FO.le q FO.one || FO.lt v FO.one
        || zsrc.isNone) = false) ∧
    ((∃ e, NewPermutation pmax pseed psrc fuel = some (Except.error e)) ↔
      pmax < 1) ∧
    ((NewPermutation pmax pseed psrc fuel
        = some (Except.error periodErrMsg)) ↔ pmax < 1) ∧
    (1 ≤ pmax → ∀ r, NewPermutation pmax pseed psrc fuel = some r →
      ∃ p, r = Except.ok p) := by
  refine ⟨?_, ?_, ?_, ?_, ?_⟩
  · cases hq : FO.isNaN q <;> cases hv : FO.isNaN v <;>
      cases hle : FO.le q FO.one <;> cases hlt : FO.lt v FO.one <;>
      cases zsrc <;> simp [NewZipf, hq, hv, hle, hlt]
  · cases hq : FO.isNaN q <;> cases hv : FO.isNaN v <;>
      cases hle : FO.le q FO.one <;> cases hlt : FO.lt v FO.one <;>
      cases zsrc <;> simp [NewZipf, hq, hv, hle, hlt]
  · by_cases hp : pmax < 1
    · simp [NewPermutation, hp]
    · simp only [NewPermutation, if_neg hp]
      constructor
      · intro ⟨e, he⟩
        exfalso
        revert he
        split <;> intro he <;> simp at he
      · intro h; omega
  · by_cases hp : pmax < 1
    · simp [NewPermutation, hp]
    · simp only [NewPermutation, if_neg hp]
      constructor
      · intro he
        exfalso
        revert he
        split <;> intro he <;> simp at he
      · intro h; omega
  · intro hp r hr
    simp only [NewPermutation, if_neg (show ¬ pmax < 1 by omega)] at hr
    revert hr
    split
    · intro hr; simp at hr
    · intro hr
      simp only [Option.some.injEq] at hr
      exact ⟨_, hr.symm⟩

/-- A successfully constructed `Permutation` is exactly a fresh instance:
counter 0, zero cached block, `rounds = permutationRounds max`, and the
drawn swap keys — so the theorems stated over `freshPerm` with arbitrary
`rounds` and `k` cover every constructed instance. -/
theorem NewPermutation_ok_fresh (pmax : Int) (pseed : Nat) (psrc : Sequence)
    (fuel : Nat) (p : Permutation)
    (h : NewPermutation pmax pseed psrc fuel = some (Except.ok p)) :
    p = freshPerm psrc pseed pmax.toNat (permutationRounds pmax.toNat) p.k := by
  by_cases hp : pmax < 1
  · simp [NewPermutation, hp] at h
  · simp only [NewPermutation, if_neg hp] at h
    revert h
    split
    · intro h; simp at h
    · intro h
      simp only [Option.some.injEq, Except.ok.injEq] at h
      subst h
      rfl

/-- Witness for `NewPermutation_ok_fresh` at a concrete construction:
`max = 2` with a constant keystream accepts the first sample. -/
theorem NewPermutation_ok_fresh_witness :
    ∃ p, NewPermutation 2 0 (fun _ => ⟨0, 0⟩) 1 = some (Except.ok p) ∧
      p = freshPerm (fun _ => ⟨0, 0⟩) 0 (Int.toNat 2)
        (permutationRounds (Int.toNat 2)) p.k := by
  refine ⟨_, rfl, ?_⟩
  exact NewPermutation_ok_fresh 2 0 (fun _ => ⟨0, 0⟩) 1 _ rfl
